import Mathlib

/-!
Shallow embedding of the Multibrand Token Exporter core (a Figma plugin that
exports color design tokens to JSON), together with proofs of the specified
properties.

JavaScript numbers appearing as color channels are modelled as rationals;
JavaScript strings as Lean `String`s (operated on through their `List Char`
data, since the plugin only uses ASCII-level operations); the asynchronous
Figma data source (`figma.variables.get…ByIdAsync`, …) as an explicit
environment `Env` of variables and collections; and the possibly
non-terminating recursion of `resolveColor` with an explicit fuel parameter
(`none` = the recursion did not finish within the given fuel).
-/

namespace Figma

/-! ## Numeric helpers: `Math.round(v * 255).toString(16)` -/

/-- Model of `Math.round(v * 255)` for a rational channel value `v`.
Implemented on the numerator/denominator so that it evaluates inside the
kernel: `⌊255 v + 1/2⌋ = ⌊(510 num + den) / (2 den)⌋` (floor division).
The bridge lemma `jsRound255_eq_floor` below proves it equal to the
mathematical `⌊v * 255 + 1/2⌋`, which is what `Math.round` computes on the
scaled channel. -/
def jsRound255 (v : ℚ) : ℤ :=
  Int.fdiv (510 * v.num + v.den) (2 * v.den)

/-- Lowercase hexadecimal digit, as produced by JS `Number.toString(16)`. -/
def hexDigit (n : Nat) : Char :=
  if n < 10 then Char.ofNat (48 + n) else Char.ofNat (87 + n)

/-- Fuelled big-endian base-16 digit expansion (prints nothing for 0). -/
def natHexAux : Nat → Nat → List Char
  | 0, _ => []
  | _ + 1, 0 => []
  | fuel + 1, n => natHexAux fuel (n / 16) ++ [hexDigit (n % 16)]

/-- Model of `n.toString(16)` for a natural number: lowercase hex digits. -/
def natToHex16 (n : Nat) : List Char :=
  if n = 0 then ['0'] else natHexAux n n

/-- Model of `n.toString(16)` for an integer (JS prints a leading minus sign for
negative numbers). -/
def jsToStr16 (n : ℤ) : List Char :=
  if n < 0 then '-' :: natToHex16 n.natAbs else natToHex16 n.toNat

/-- The inner `toHex` of `rgbaToHex`:
`Math.round(v * 255).toString(16)`, prefixed with `"0"` when it is a single
character. -/
def toHexChars (v : ℚ) : List Char :=
  let hex := jsToStr16 (jsRound255 v)
  if hex.length = 1 then '0' :: hex else hex

/-- JS `String.prototype.toUpperCase`, restricted to the ASCII characters the
plugin produces. -/
def strToUpper (s : String) : String := ⟨s.data.map Char.toUpper⟩

/-- JS `String.prototype.toLowerCase`, restricted to ASCII. -/
def strToLower (s : String) : String := ⟨s.data.map Char.toLower⟩

/-- Figma's RGBA color value: channels normalized to `[0,1]`; the alpha
channel may be absent (the code tests `c.a !== undefined`). -/
structure RGBA where
  r : ℚ
  g : ℚ
  b : ℚ
  a : Option ℚ
deriving DecidableEq

/-- Model of `rgbaToHex` from `src/core/utils.ts`: channels scaled, rounded and
hex-printed; the alpha channel is appended only when it is defined and
strictly below 1; the whole string is uppercased. -/
def rgbaToHex (c : RGBA) : String :=
  let r := toHexChars c.r
  let g := toHexChars c.g
  let b := toHexChars c.b
  match c.a with
  | some a =>
    if a < 1 then strToUpper ⟨'#' :: (r ++ g ++ b ++ toHexChars a)⟩
    else strToUpper ⟨'#' :: (r ++ g ++ b)⟩
  | none => strToUpper ⟨'#' :: (r ++ g ++ b)⟩

/-! ## Variable values and `parseColorValue` -/

/-- A value stored for one mode of a Figma variable: a raw RGBA color, an
alias `{type:"VARIABLE_ALIAS", id}`, or some other (non-color, non-alias)
value, tagged with its JS truthiness. -/
inductive VarValue where
  | color (c : RGBA)
  | alias (id : String)
  | other (truthy : Bool)
deriving DecidableEq

/-- Model of `isVariableAlias` from `resolve.ts` (the argument may be `undefined`,
modelled as `none`). -/
def isVariableAlias : Option VarValue → Bool
  | some (VarValue.alias _) => true
  | _ => false

/-- JS truthiness of a mode value (`undefined` is handled at the call sites). -/
def VarValue.isTruthy : VarValue → Bool
  | VarValue.other t => t
  | _ => true

/-- Model of `parseColorValue` from `utils.ts`: an object with an `r` field is
converted through `rgbaToHex`; everything else (including `undefined`)
falls back to black. -/
def parseColorValue : Option VarValue → String
  | some (VarValue.color c) => rgbaToHex c
  | _ => "#000000"

/-! ## The Figma data source and the color resolver (`resolve.ts`) -/

/-- A Figma variable: hierarchical `/`-separated name, resolved type
(only `"COLOR"` is processed), owning collection id, and the per-mode value
map (a key-value list; `List.lookup` returns `none` for an absent mode,
matching JS `undefined`). -/
structure Variable where
  id : String
  name : String
  resolvedType : String
  variableCollectionId : String
  valuesByMode : List (String × VarValue)
deriving DecidableEq

/-- A named mode of a variable collection. -/
structure VariableMode where
  modeId : String
  name : String
deriving DecidableEq

/-- A variable collection: groups variables under a set of named modes. -/
structure VariableCollection where
  id : String
  name : String
  modes : List VariableMode
deriving DecidableEq

/-- The read-only data source provided by the Figma plugin runtime:
`figma.variables.getLocalVariablesAsync()` returns `localVariables`,
`figma.variables.getLocalVariableCollectionsAsync()` returns
`localCollections`, and the by-id getters search them. -/
structure Env where
  localVariables : List Variable
  localCollections : List VariableCollection
deriving DecidableEq

/-- Model of `figma.variables.getVariableByIdAsync`. -/
def getVariableById (env : Env) (id : String) : Option Variable :=
  env.localVariables.find? fun v => v.id == id

/-- Model of `figma.variables.getVariableCollectionByIdAsync` (a thrown error is
caught by the caller and treated as `null`, so `none` covers both). -/
def getVariableCollectionById (env : Env) (id : String) : Option VariableCollection :=
  env.localCollections.find? fun c => c.id == id

/-- Result of color resolution: a hex string and the provenance of the
resolved primitive. -/
structure ColorResult where
  hex : String
  primitiveName : String
deriving DecidableEq

/-- Model of `createFallbackResult` from `resolve.ts`: magenta marker for unresolved
aliases. -/
def createFallbackResult (primitiveName : String) : ColorResult :=
  { hex := "#FF00FF", primitiveName := primitiveName }

/-- Model of `resolveVariableValue` from `resolve.ts`: resolve a variable at a given
mode; `none` when the mode has no (truthy) value or the value is an alias.
The optional mode name becomes a ` (<mode name>)` suffix on the provenance
(the JS truthiness test also drops an empty mode name). -/
def resolveVariableValue (v : Variable) (modeId : String)
    (modeName : Option String) : Option ColorResult :=
  match v.valuesByMode.lookup modeId with
  | none => none
  | some value =>
    if value.isTruthy = false then none
    else if isVariableAlias (some value) = true then none
    else
      let suffix := match modeName with
        | some mn => if mn = "" then "" else " (" ++ mn ++ ")"
        | none => ""
      some { hex := parseColorValue (some value)
             primitiveName := v.name ++ suffix }

/-- The light/dark intent steering the fallback mode search. -/
inductive BrandModeType where
  | light
  | dark
deriving DecidableEq

/-- The literal substring searched for in mode names. -/
def BrandModeType.str : BrandModeType → String
  | BrandModeType.light => "light"
  | BrandModeType.dark => "dark"

/-- JS `String.prototype.includes`: substring containment. -/
def strContainsSub (haystack needle : String) : Bool :=
  (List.range (haystack.data.length + 1)).any fun i =>
    needle.data.isPrefixOf (haystack.data.drop i)

/-- Model of `findMatchingMode` from `resolve.ts`: first mode of the variable's owning
collection whose lowercased name contains the brand mode type substring.
An empty collection id is JS-falsy and short-circuits to `none`. -/
def findMatchingMode (env : Env) (v : Variable)
    (brandModeType : BrandModeType) : Option VariableMode :=
  if v.variableCollectionId = "" then none
  else
    match getVariableCollectionById env v.variableCollectionId with
    | none => none
    | some collection =>
      collection.modes.find? fun mode =>
        strContainsSub (strToLower mode.name) brandModeType.str

/-- Last tier of `resolveColor`: try the first mode present on the primitive's
value map (provenance suffix `"fallback"`), else the `Unresolved:` sentinel. -/
def firstModeFallback (primitiveVar : Variable) : Option ColorResult :=
  match primitiveVar.valuesByMode with
  | [] => some (createFallbackResult ("Unresolved: " ++ primitiveVar.name))
  | (firstModeId, _) :: _ =>
    match resolveVariableValue primitiveVar firstModeId (some "fallback") with
    | some fallbackResult => some fallbackResult
    | none => some (createFallbackResult ("Unresolved: " ++ primitiveVar.name))

/-- Model of `resolveColor` from `resolve.ts`. The extra `Nat` argument is recursion
fuel: the JS function recurses without bound on alias chains, so `none`
models a recursion that does not terminate within the given fuel; every
`return` of the source corresponds to a `some`.

Tier order, as in the source: raw value at `modeId` (provenance `"Raw"`);
alias dereference (`Unresolved` sentinel when the target is missing); direct
resolution at `primitiveModeId`; brand-mode search (raw value, or recursion
into an alias with provenance chained by `" → "`); first-available-mode
fallback; final `Unresolved: <name>` sentinel. -/
def resolveColor (env : Env) :
    Nat → Variable → String → String → Option BrandModeType → Option ColorResult
  | 0, _, _, _, _ => none
  | fuel + 1, v, modeId, primitiveModeId, brandModeType =>
    match v.valuesByMode.lookup modeId with
    | some (VarValue.alias aliasId) =>
      match getVariableById env aliasId with
      | none => some (createFallbackResult "Unresolved")
      | some primitiveVar =>
        match resolveVariableValue primitiveVar primitiveModeId none with
        | some directResult => some directResult
        | none =>
          match brandModeType with
          | some bmt =>
            match findMatchingMode env primitiveVar bmt with
            | some matchingMode =>
              match resolveVariableValue primitiveVar matchingMode.modeId
                  (some matchingMode.name) with
              | some modeResult => some modeResult
              | none =>
                match primitiveVar.valuesByMode.lookup matchingMode.modeId with
                | some (VarValue.alias _) =>
                  match resolveColor env fuel primitiveVar matchingMode.modeId
                      matchingMode.modeId brandModeType with
                  | some nestedResult =>
                    some { hex := nestedResult.hex
                           primitiveName :=
                             primitiveVar.name ++ " → " ++ nestedResult.primitiveName }
                  | none => none
                | _ => firstModeFallback primitiveVar
            | none => firstModeFallback primitiveVar
          | none => firstModeFallback primitiveVar
    | value => some { hex := parseColorValue value, primitiveName := "Raw" }

/-! ## Path / name utilities (`utils.ts`, `export.ts`) -/

/-- Helper for JS `replace(/\s+/g, '-')`: each maximal run of whitespace
becomes a single `'-'`. The boolean records whether the previous character
was part of a whitespace run. (`Char.isWhitespace` covers the ASCII
whitespace the plugin encounters.) -/
def replaceWsAux : Bool → List Char → List Char
  | _, [] => []
  | prevWs, ch :: rest =>
    if ch.isWhitespace then
      (if prevWs then [] else ['-']) ++ replaceWsAux true rest
    else ch :: replaceWsAux false rest

/-- Model of `toKebabCase` from `utils.ts`: every whitespace run becomes a
hyphen, then every slash becomes a hyphen, then the result is lowercased. -/
def toKebabCase (name : String) : String :=
  ⟨((replaceWsAux false name.data).map fun ch =>
      if ch = '/' then '-' else ch).map Char.toLower⟩

/-- Model of `sanitizeFolderName` from `utils.ts`, which replaces every
whitespace run and every slash by the empty string — equivalently, deletes
exactly the whitespace and slash characters. -/
def sanitizeFolderName (name : String) : String :=
  ⟨name.data.filter fun ch => !(ch.isWhitespace || ch = '/')⟩

/-- JS `String.prototype.split("/")` on the character list: `"a/b" ↦
["a","b"]`, `"" ↦ [""]`, `"a//b" ↦ ["a","","b"]`. Always non-empty. -/
def splitSlash : List Char → List (List Char)
  | [] => [[]]
  | ch :: rest =>
    if ch = '/' then [] :: splitSlash rest
    else
      match splitSlash rest with
      | [] => [[ch]]
      | seg :: segs => (ch :: seg) :: segs

/-- Result of `parseVariablePath`. -/
structure ParsedPath where
  folders : List String
  filename : String
deriving DecidableEq

/-- Model of `parseVariablePath` from `export.ts`: split the variable name on `/`;
all but the last segment become sanitized folder names, the last becomes the
kebab-cased filename; a purely-numeric last segment with a parent gets the
kebab-cased parent prefixed (`Gray/50 ↦ gray-50`). -/
def parseVariablePath (variableName : String) : ParsedPath :=
  let parts : List String := (splitSlash variableName.data).map fun seg => ⟨seg⟩
  let folders := parts.dropLast.map sanitizeFolderName
  let lastPart := parts.getLastD ""
  let filename := toKebabCase lastPart
  if lastPart ≠ "" ∧ lastPart.data.all Char.isDigit = true ∧ 1 < parts.length then
    { folders := folders
      filename := toKebabCase (parts.getD (parts.length - 2) "") ++ "-" ++ lastPart }
  else
    { folders := folders, filename := filename }

/-! ## The token tree (`utils.ts`: `insertTokenIntoTree`,
`sortTokensAlphabetically`) -/

/-- Per-brand resolved colors of a token (`resolveBrandColors` output): the
`light`/`dark` keys are present only when the brand configuration has the
corresponding mode binding. -/
structure BrandColors where
  light : Option ColorResult
  dark : Option ColorResult
deriving DecidableEq

/-- A node of the exported token tree: a `TokenObject`
(`{name, type:"token", path, modes}`) or a `GroupObject`
(`{name, type:"group", children}`). -/
inductive Item : Type where
  | token (name : String) (path : String) (modes : List (String × BrandColors))
  | group (name : String) (children : List Item)

/-- The `name` field of a tree node. -/
def Item.name : Item → String
  | Item.token n _ _ => n
  | Item.group n _ => n

/-- The test `item.type === "group"`. -/
def Item.isGroup : Item → Bool
  | Item.group _ _ => true
  | Item.token _ _ _ => false

/-- The test `item.type === "token"`. -/
def Item.isToken : Item → Bool
  | Item.token _ _ _ => true
  | Item.group _ _ => false

/-- The test of `currentLevel.find(item => item.name === folderName &&
item.type === "group")`. -/
def isMatchingGroup (item : Item) (folderName : String) : Bool :=
  item.name == folderName && item.isGroup

/-- Model of `insertTokenIntoTree` from `utils.ts`, functionally: walk the level
following the folder path; the first group matching the current folder name
is descended into; when none matches, a fresh group (children built by
inserting into `[]`) is appended at the end of the level; at the end of the
path the token is appended to the innermost children array. -/
def insertTokenIntoTree : List Item → List String → Item → List Item
  | currentLevel, [], tokenObj => currentLevel ++ [tokenObj]
  | [], folderName :: restFolders, tokenObj =>
    [Item.group folderName (insertTokenIntoTree [] restFolders tokenObj)]
  | item :: rest, folderName :: restFolders, tokenObj =>
    if isMatchingGroup item folderName then
      match item with
      | Item.group n children =>
        Item.group n (insertTokenIntoTree children restFolders tokenObj) :: rest
      | t => t :: insertTokenIntoTree rest (folderName :: restFolders) tokenObj
    else
      item :: insertTokenIntoTree rest (folderName :: restFolders) tokenObj
termination_by currentLevel folders _ => (folders.length, currentLevel.length)

/-- The comparator passed to `.sort()` in `sortTokensAlphabetically`:
groups sort before tokens; within a tier, by `localeCompare` on names.
`lc` is the environment-provided `String.prototype.localeCompare`. -/
def tokenComparator (lc : String → String → Int) (a b : Item) : Int :=
  if a.isGroup && !b.isGroup then -1
  else if !a.isGroup && b.isGroup then 1
  else lc a.name b.name

/-- Whether `a` may stay before `b` under the comparator (comparator value `≤ 0`);
this is the order realized by a JS stable sort with a consistent comparator. -/
def itemLE (lc : String → String → Int) (a b : Item) : Bool :=
  tokenComparator lc a b ≤ 0

mutual

/-- The body of the `.map(...)` in `sortTokensAlphabetically`: a group's
children are recursively sorted, other items pass through. -/
def sortItem (lc : String → String → Int) : Item → Item
  | Item.group n children => Item.group n ((sortEach lc children).mergeSort (itemLE lc))
  | t => t

/-- Model of `items.map(sortItem)`, unfolded for structural recursion. -/
def sortEach (lc : String → String → Int) : List Item → List Item
  | [] => []
  | item :: rest => sortItem lc item :: sortEach lc rest

end

/-- Model of `sortTokensAlphabetically` from `utils.ts`: recursively sort children,
then stably sort the level with the group-first/locale comparator (JS
`Array.prototype.sort` with a consistent comparator, modelled by
`List.mergeSort`). -/
def sortTokensAlphabetically (lc : String → String → Int) (items : List Item) : List Item :=
  (sortEach lc items).mergeSort (itemLE lc)

/-! ## Export orchestration (`export.ts`) -/

/-- One brand's mode binding: a token-collection mode id paired with the
primitive-collection mode id used for alias resolution. -/
structure ModeBinding where
  modeId : String
  primitiveModeId : String
deriving DecidableEq

/-- A brand configuration: name plus optional light/dark bindings. -/
structure Brand where
  name : String
  light : Option ModeBinding
  dark : Option ModeBinding
deriving DecidableEq

/-- The export configuration received from the UI. -/
structure ExportConfig where
  tokenCollectionId : String
  primitiveCollectionId : String
  brands : List Brand
  lang : Option String
deriving DecidableEq

/-- Model of `resolveBrandColors` from `resolve.ts`: resolve the light and dark modes
of one brand (each skipped when its binding is absent or its mode id is
JS-falsy). `none` propagates fuel exhaustion of `resolveColor`. -/
def resolveBrandColors (env : Env) (fuel : Nat) (v : Variable) (brand : Brand) :
    Option BrandColors := do
  let lightRes : Option ColorResult ←
    match brand.light with
    | some binding =>
      if binding.modeId = "" then pure none
      else do
        let res ← resolveColor env fuel v binding.modeId binding.primitiveModeId
          (some BrandModeType.light)
        pure (some res)
    | none => pure (none : Option ColorResult)
  let darkRes : Option ColorResult ←
    match brand.dark with
    | some binding =>
      if binding.modeId = "" then pure none
      else do
        let res ← resolveColor env fuel v binding.modeId binding.primitiveModeId
          (some BrandModeType.dark)
        pure (some res)
    | none => pure (none : Option ColorResult)
  pure { light := lightRes, dark := darkRes }

/-- The `for (const brand of brands)` loop of `createTokenObject`: resolve
every brand, collecting `modes[brand.name] = brandResult` in order. -/
def resolveAllBrands (env : Env) (fuel : Nat) (v : Variable) :
    List Brand → Option (List (String × BrandColors))
  | [] => pure []
  | brand :: rest => do
    let brandResult ← resolveBrandColors env fuel v brand
    let restResults ← resolveAllBrands env fuel v rest
    pure ((brand.name, brandResult) :: restResults)

/-- Model of `createTokenObject` from `export.ts`: token named by the parsed filename,
`path` = the full variable name, `modes` = per-brand resolved colors. -/
def createTokenObject (env : Env) (fuel : Nat) (v : Variable) (brands : List Brand) :
    Option Item := do
  let modes ← resolveAllBrands env fuel v brands
  pure (Item.token (parseVariablePath v.name).filename v.name modes)

/-- Model of `processVariables` from `export.ts`: iterate the variables, skipping
non-`COLOR` ones, and insert each token object into the tree at its folder
path. -/
def processVariables (env : Env) (fuel : Nat) (brands : List Brand) :
    List Variable → List Item → Option (List Item)
  | [], rootArray => some rootArray
  | v :: rest, rootArray =>
    if v.resolvedType ≠ "COLOR" then processVariables env fuel brands rest rootArray
    else do
      let tokenObj ← createTokenObject env fuel v brands
      processVariables env fuel brands rest
        (insertTokenIntoTree rootArray (parseVariablePath v.name).folders tokenObj)

/-- The notification strings of `export.ts`. -/
structure Translation where
  analyzing : String
  exportFinished : String
deriving DecidableEq

/-- The English notification strings (`translations.en`). -/
def enTranslation : Translation :=
  { analyzing := "⏳ Analysing...", exportFinished := "✅ Export finished!" }

/-- The `translations` record of `export.ts` (`fr` and `en` keys). -/
def translations : String → Option Translation
  | "fr" => some { analyzing := "⏳ Analyse en cours..."
                   exportFinished := "✅ Export terminé !" }
  | "en" => some enTranslation
  | _ => none

/-- The export metadata (`createExportMetadata` from `utils.ts`); the two
clock readings are inputs of the model. -/
structure ExportMetadata where
  exportedAt : String
  timestamp : Int
  version : String
  generator : String
deriving DecidableEq

/-- Model of `createExportMetadata`, with `new Date().toISOString()` and `Date.now()`
passed in as `nowISO` / `nowMs`. -/
def createExportMetadata (nowISO : String) (nowMs : Int) : ExportMetadata :=
  { exportedAt := nowISO, timestamp := nowMs
    version := "1.0.0", generator := "Multibrand Token Exporter" }

/-- Observable side effects of an export run: `figma.notify` and
`figma.ui.postMessage({type, data: {metadata, tokens}})`. -/
inductive Effect where
  | notify (message : String)
  | postMessage (msgType : String) (metadata : ExportMetadata) (tokens : List Item)

/-- Model of `validateAndGetCollections` from `export.ts`: both collections must
exist, otherwise the descriptive error is thrown; on success the variables
are filtered to the token collection. -/
def validateAndGetCollections (env : Env)
    (tokenCollectionId primitiveCollectionId : String) :
    Except String (VariableCollection × VariableCollection × List Variable) :=
  let primitivesColl := env.localCollections.find? fun c => c.id == primitiveCollectionId
  let tokensColl := env.localCollections.find? fun c => c.id == tokenCollectionId
  match primitivesColl, tokensColl with
  | some p, some t =>
    Except.ok (p, t, env.localVariables.filter fun v =>
      v.variableCollectionId == tokenCollectionId)
  | _, _ => Except.error "Collections not found - please check your collection IDs"

/-- Model of `exportTokens` from `export.ts`. The result is `none` when resolution ran
out of fuel (modelling the unbounded recursion), otherwise the ordered list
of emitted effects together with the thrown error, if any (`throw` aborts
after the initial notification). -/
def exportTokens (env : Env) (lc : String → String → Int) (fuel : Nat)
    (nowISO : String) (nowMs : Int) (config : ExportConfig) :
    Option (List Effect × Option String) :=
  let lang := match config.lang with
    | some l => if l = "" then "en" else l
    | none => "en"
  let t := (translations lang).getD enTranslation
  match validateAndGetCollections env config.tokenCollectionId
      config.primitiveCollectionId with
  | Except.error e => some ([Effect.notify t.analyzing], some e)
  | Except.ok (_, _, vars) =>
    match processVariables env fuel config.brands vars [] with
    | none => none
    | some rootArray =>
      let sortedTokens := sortTokensAlphabetically lc rootArray
      some ([Effect.notify t.analyzing,
             Effect.postMessage "download-json" (createExportMetadata nowISO nowMs)
               sortedTokens,
             Effect.notify t.exportFinished], none)

/-! ## Specification predicates -/

/-- Names of the `type:"group"` entries of one level, in order. -/
def groupNames : List Item → List String
  | [] => []
  | Item.group n _ :: rest => n :: groupNames rest
  | Item.token _ _ _ :: rest => groupNames rest

/-- Invariant: at this level and recursively inside every group, no two
group entries share a name. -/
inductive NoDupGroups : List Item → Prop where
  | intro {items : List Item} :
      (groupNames items).Nodup →
      (∀ n cs, Item.group n cs ∈ items → NoDupGroups cs) →
      NoDupGroups items

/-- One level is sorted as the spec demands: no token precedes a group, and
any two entries of the same tier are in weakly increasing `lc`-name order. -/
def levelSorted (lc : String → String → Int) (items : List Item) : Prop :=
  items.Pairwise fun a b =>
    (a.isGroup = false → b.isGroup = false) ∧
    (a.isGroup = b.isGroup → lc a.name b.name ≤ 0)

/-- The whole forest is sorted: every level, recursively. -/
inductive TreeSorted (lc : String → String → Int) : List Item → Prop where
  | intro {items : List Item} :
      levelSorted lc items →
      (∀ n cs, Item.group n cs ∈ items → TreeSorted lc cs) →
      TreeSorted lc items

/-- A token with path `p` occurs in the tree (at any depth). -/
inductive ItemHasPath (p : String) : Item → Prop where
  | token : ∀ name modes, ItemHasPath p (Item.token name p modes)
  | group : ∀ name cs item, item ∈ cs → ItemHasPath p item →
      ItemHasPath p (Item.group name cs)

/-- A token with path `p` occurs somewhere in the forest. -/
def TreeHasPath (p : String) (items : List Item) : Prop :=
  ∃ item ∈ items, ItemHasPath p item

/-- A concrete consistent comparator standing in for `localeCompare`
(code-point order); ECMA-402 only guarantees that `localeCompare` induces
some total preorder, which the sorting theorems take as hypotheses. -/
def lcDefault (a b : String) : Int :=
  if a < b then -1 else if b < a then 1 else 0

/-- Lemma: `lcDefault` is total in the comparator sense. -/
theorem lcDefault_total (a b : String) : lcDefault a b ≤ 0 ∨ lcDefault b a ≤ 0 := by
  unfold lcDefault
  rcases lt_trichotomy a b with h | h | h
  · left; simp [h]
  · left; simp [h, lt_irrefl]
  · right; simp [h]

/-- Lemma: `lcDefault` is transitive in the comparator sense. -/
theorem lcDefault_trans (a b c : String)
    (hab : lcDefault a b ≤ 0) (hbc : lcDefault b c ≤ 0) : lcDefault a c ≤ 0 := by
  unfold lcDefault at *
  have hab' : ¬ b < a := by
    intro h
    simp [h, asymm h] at hab
  have hbc' : ¬ c < b := by
    intro h
    simp [h, asymm h] at hbc
  have : ¬ c < a := fun h => hbc' (lt_of_lt_of_le h (not_lt.mp hab'))
  by_cases h1 : a < c <;> simp [h1, this]

/-! ## Claims about the color resolver -/

/-- C5: when the variable's value at the requested mode is an alias whose
target id dereferences to no variable, `resolveColor` returns the sentinel
`{hex: "#FF00FF", primitiveName: "Unresolved"}` (it does not throw — the
model returns `some`, i.e. the function terminates normally). -/
theorem resolveColor_unresolved_sentinel (env : Env) (fuel : Nat) (v : Variable)
    (modeId primitiveModeId : String) (bmt : Option BrandModeType) (aliasId : String)
    (hval : v.valuesByMode.lookup modeId = some (VarValue.alias aliasId))
    (hmiss : getVariableById env aliasId = none) :
    resolveColor env (fuel + 1) v modeId primitiveModeId bmt =
      some { hex := "#FF00FF", primitiveName := "Unresolved" } := by
  simp [resolveColor, hval, hmiss, createFallbackResult]

/-- Witness for C5: a variable aliasing a missing id resolves to the
sentinel. -/
theorem resolveColor_unresolved_sentinel_witness :
    resolveColor ⟨[], []⟩ 1 ⟨"t", "T", "COLOR", "tc", [("m", VarValue.alias "nope")]⟩
        "m" "pm" none =
      some { hex := "#FF00FF", primitiveName := "Unresolved" } :=
  resolveColor_unresolved_sentinel ⟨[], []⟩ 0 _ "m" "pm" none "nope"
    (by decide) (by decide)

/-- C9: when the requested mode is absent from `valuesByMode`, or holds a
non-alias value that is not an RGBA object, `resolveColor` degrades to black
with provenance `"Raw"` (not the `#FF00FF` sentinel). -/
theorem resolveColor_missing_mode_raw (env : Env) (fuel : Nat) (v : Variable)
    (modeId primitiveModeId : String) (bmt : Option BrandModeType)
    (h : v.valuesByMode.lookup modeId = none ∨
         ∃ b, v.valuesByMode.lookup modeId = some (VarValue.other b)) :
    resolveColor env (fuel + 1) v modeId primitiveModeId bmt =
      some { hex := "#000000", primitiveName := "Raw" } := by
  rcases h with h | ⟨b, h⟩ <;> simp [resolveColor, h, parseColorValue]

/-- Witness for C9: a variable with no value at the requested mode resolves
to black/`Raw`. -/
theorem resolveColor_missing_mode_raw_witness :
    resolveColor ⟨[], []⟩ 1 ⟨"t", "T", "COLOR", "tc", []⟩ "m" "pm" none =
      some { hex := "#000000", primitiveName := "Raw" } :=
  resolveColor_missing_mode_raw ⟨[], []⟩ 0 _ "m" "pm" none (Or.inl (by decide))

/-- String append is associative (via the underlying character lists). -/
theorem strAppendAssoc (a b c : String) : a ++ b ++ c = a ++ (b ++ c) := by
  apply String.ext
  simp [String.data_append, List.append_assoc]

/-- Helper: a mode found by `findMatchingMode` satisfies the search
predicate. -/
theorem findMatchingMode_contains {env : Env} {v : Variable} {bmt : BrandModeType}
    {m : VariableMode} (h : findMatchingMode env v bmt = some m) :
    strContainsSub (strToLower m.name) bmt.str = true := by
  unfold findMatchingMode at h
  split at h
  · exact absurd h (by simp)
  · split at h
    · exact absurd h (by simp)
    · simpa using List.find?_some h

/-- Helper: a mode found by `findMatchingMode` has a non-empty name (its
lowercased name contains `"light"` or `"dark"`). -/
theorem findMatchingMode_name_ne_empty {env : Env} {v : Variable}
    {bmt : BrandModeType} {m : VariableMode}
    (h : findMatchingMode env v bmt = some m) : m.name ≠ "" := by
  intro he
  have hc := findMatchingMode_contains h
  rw [he] at hc
  cases bmt <;> revert hc <;> decide

/-- C4: when the variable's value is an alias to a primitive with no value at
the requested primitive mode, and the brand-mode search finds a mode of the
primitive's collection whose value is a raw color, `resolveColor` returns
that raw value's hex with provenance `<primitive name> (<mode name>)`. -/
theorem resolveColor_brand_mode_raw (env : Env) (fuel : Nat) (v : Variable)
    (modeId primitiveModeId : String) (bmt : BrandModeType) (aliasId : String)
    (pvar : Variable) (m : VariableMode) (c : RGBA)
    (hval : v.valuesByMode.lookup modeId = some (VarValue.alias aliasId))
    (hp : getVariableById env aliasId = some pvar)
    (hdirect : pvar.valuesByMode.lookup primitiveModeId = none)
    (hfind : findMatchingMode env pvar bmt = some m)
    (hraw : pvar.valuesByMode.lookup m.modeId = some (VarValue.color c)) :
    resolveColor env (fuel + 1) v modeId primitiveModeId (some bmt) =
      some { hex := rgbaToHex c
             primitiveName := pvar.name ++ " (" ++ m.name ++ ")" } := by
  have hmn : m.name ≠ "" := findMatchingMode_name_ne_empty hfind
  simp [resolveColor, hval, hp, resolveVariableValue, hdirect, hfind, hraw,
    VarValue.isTruthy, isVariableAlias, parseColorValue, hmn, strAppendAssoc]

/-- Witness for C4: brand mode type `dark`, a primitive with a mode literally
named `Dark`, provenance `UI/Color/Brand/700 (Dark)`. -/
theorem resolveColor_brand_mode_raw_witness :
    resolveColor
        ⟨[⟨"p1", "UI/Color/Brand/700", "COLOR", "pc",
           [("mDark", VarValue.color ⟨1, 0, 0, some 1⟩)]⟩],
         [⟨"pc", "Primitives", [⟨"mLight", "Light"⟩, ⟨"mDark", "Dark"⟩]⟩]⟩
        1 ⟨"t1", "Button/bg", "COLOR", "tc", [("m1", VarValue.alias "p1")]⟩
        "m1" "pmX" (some BrandModeType.dark) =
      some { hex := rgbaToHex ⟨1, 0, 0, some 1⟩
             primitiveName := "UI/Color/Brand/700" ++ " (" ++ "Dark" ++ ")" } :=
  resolveColor_brand_mode_raw _ 0 _ "m1" "pmX" BrandModeType.dark "p1"
    ⟨"p1", "UI/Color/Brand/700", "COLOR", "pc",
      [("mDark", VarValue.color ⟨1, 0, 0, some 1⟩)]⟩
    ⟨"mDark", "Dark"⟩ ⟨1, 0, 0, some 1⟩
    (by decide) (by decide) (by decide) (by decide) (by decide)

/-- C1: when the alias target has no raw value at the requested primitive
mode and the brand-mode search finds a mode whose value is itself an alias,
`resolveColor` recurses on the primitive with the found mode as both current
and primitive mode, and chains the provenance with `" → "`. -/
theorem resolveColor_recursive_chain (env : Env) (fuel : Nat) (v : Variable)
    (modeId primitiveModeId : String) (bmt : BrandModeType) (aliasId : String)
    (pvar : Variable) (m : VariableMode) (aliasId2 : String) (nested : ColorResult)
    (hval : v.valuesByMode.lookup modeId = some (VarValue.alias aliasId))
    (hp : getVariableById env aliasId = some pvar)
    (hdirect : resolveVariableValue pvar primitiveModeId none = none)
    (hfind : findMatchingMode env pvar bmt = some m)
    (halias : pvar.valuesByMode.lookup m.modeId = some (VarValue.alias aliasId2))
    (hnested : resolveColor env fuel pvar m.modeId m.modeId (some bmt) = some nested) :
    resolveColor env (fuel + 1) v modeId primitiveModeId (some bmt) =
      some { hex := nested.hex
             primitiveName := pvar.name ++ " → " ++ nested.primitiveName } := by
  have hmode : resolveVariableValue pvar m.modeId (some m.name) = none := by
    simp [resolveVariableValue, halias, isVariableAlias, VarValue.isTruthy]
  simp [resolveColor, hval, hp, hdirect, hfind, hmode, halias, hnested]

/-- Witness for C1: a semantic token aliases an intermediate token whose
`Dark` mode is itself an alias to a primitive; the provenance chains with
`" → "`. -/
theorem resolveColor_recursive_chain_witness :
    resolveColor
        ⟨[⟨"mid", "Theme/Accent", "COLOR", "pc",
           [("mDark", VarValue.alias "p2")]⟩,
          ⟨"p2", "Base/Red", "COLOR", "pc",
           [("mDark", VarValue.color ⟨1, 0, 0, some 1⟩)]⟩],
         [⟨"pc", "Primitives", [⟨"mDark", "Dark"⟩]⟩]⟩
        2 ⟨"t1", "Button/bg", "COLOR", "tc", [("m1", VarValue.alias "mid")]⟩
        "m1" "pmX" (some BrandModeType.dark) =
      some { hex := (⟨"#FF0000", "Base/Red"⟩ : ColorResult).hex
             primitiveName :=
               "Theme/Accent" ++ " → " ++
                 (⟨"#FF0000", "Base/Red"⟩ : ColorResult).primitiveName } :=
  resolveColor_recursive_chain _ 1 _ "m1" "pmX" BrandModeType.dark "mid"
    ⟨"mid", "Theme/Accent", "COLOR", "pc", [("mDark", VarValue.alias "p2")]⟩
    ⟨"mDark", "Dark"⟩ "p2" ⟨"#FF0000", "Base/Red"⟩
    (by decide) (by decide) (by decide) (by decide) (by decide) (by decide)

/-! ## C8: `rgbaToHex` against the spec's description -/

/-- Bridge: `jsRound255` is the mathematical `Math.round` of the scaled
channel, `⌊v * 255 + 1/2⌋`. -/
theorem jsRound255_eq_floor (v : ℚ) : jsRound255 v = ⌊v * 255 + 1 / 2⌋ := by
  have hd : (0 : ℚ) < (v.den : ℚ) := by exact_mod_cast v.pos
  have hrw : v * 255 + 1 / 2 =
      ((510 * v.num + (v.den : ℤ) : ℤ) : ℚ) / (((2 * v.den : ℕ) : ℕ) : ℚ) := by
    have hd' : (v.den : ℚ) ≠ 0 := ne_of_gt hd
    conv_lhs => rw [← Rat.num_div_den v]
    push_cast
    field_simp
    ring
  rw [hrw, Rat.floor_intCast_div_natCast, jsRound255,
    Int.fdiv_eq_ediv _ (by positivity)]
  push_cast
  rfl

/-- For a channel in `[0,1]` the rounded value is non-negative. -/
theorem jsRound255_nonneg {v : ℚ} (h0 : 0 ≤ v) : 0 ≤ jsRound255 v := by
  rw [jsRound255_eq_floor]
  have h : (0 : ℚ) ≤ v * 255 + 1 / 2 := by nlinarith
  exact_mod_cast Int.le_floor.mpr (by exact_mod_cast h)

/-- For a channel in `[0,1]` the rounded value is at most 255. -/
theorem jsRound255_le_255 {v : ℚ} (h1 : v ≤ 1) : jsRound255 v ≤ 255 := by
  rw [jsRound255_eq_floor]
  have h : v * 255 + 1 / 2 < ((256 : ℤ) : ℚ) := by push_cast; nlinarith
  have := Int.floor_lt.mpr h
  omega

/-- Lemma: `natHexAux` prints nothing for 0, at any fuel. -/
theorem natHexAux_zero (fuel : Nat) : natHexAux fuel 0 = [] := by
  cases fuel <;> rfl

/-- A number below 16 prints as a single digit. -/
theorem natHexAux_small {fuel n : Nat} (hf : 1 ≤ fuel) (h1 : 1 ≤ n) (h2 : n < 16) :
    natHexAux fuel n = [hexDigit n] := by
  obtain ⟨f, rfl⟩ : ∃ f, fuel = f + 1 := ⟨fuel - 1, by omega⟩
  obtain ⟨k, rfl⟩ : ∃ k, n = k + 1 := ⟨n - 1, by omega⟩
  show natHexAux f ((k + 1) / 16) ++ [hexDigit ((k + 1) % 16)] = _
  rw [Nat.div_eq_of_lt h2, Nat.mod_eq_of_lt h2, natHexAux_zero]
  rfl

/-- A byte value prints as one or two hex digits. -/
theorem natToHex16_len {n : Nat} (h : n ≤ 255) :
    (natToHex16 n).length = 1 ∨ (natToHex16 n).length = 2 := by
  by_cases h0 : n = 0
  · left; simp [natToHex16, h0]
  by_cases h16 : n < 16
  · left
    rw [natToHex16, if_neg h0, natHexAux_small (by omega) (by omega) h16]
    rfl
  · right
    rw [natToHex16, if_neg h0]
    obtain ⟨k, rfl⟩ : ∃ k, n = k + 1 := ⟨n - 1, by omega⟩
    show (natHexAux k ((k + 1) / 16) ++ [hexDigit ((k + 1) % 16)]).length = 2
    rw [natHexAux_small (by omega) ((Nat.one_le_div_iff (by norm_num)).mpr (by omega))
      ((Nat.div_lt_iff_lt_mul (by norm_num)).mpr (by omega))]
    rfl

/-- Spec-side channel encoding, written from the spec's words: the channel
scaled by 255 and rounded, hex-printed with uppercase letters, zero-padded
to two digits. To be compared with the code-side `toHexChars`. -/
def specChannelHex (v : ℚ) : List Char :=
  let digits := (jsToStr16 (jsRound255 v)).map Char.toUpper
  List.replicate (2 - digits.length) '0' ++ digits

/-- Spec-side `rgbaToHex`, written from the spec's words: `#`, then the
channels in R,G,B order, then the alpha channel exactly when it is defined
and strictly less than 1. -/
def rgbaToHexSpec (c : RGBA) : String :=
  ⟨'#' :: (specChannelHex c.r ++ specChannelHex c.g ++ specChannelHex c.b ++
    (match c.a with
     | some a => if a < 1 then specChannelHex a else []
     | none => []))⟩

/-- The code-side channel encoding, uppercased, agrees with the spec-side
two-digit encoding on channels in `[0,1]`. -/
theorem toHexChars_upper_eq {v : ℚ} (h0 : 0 ≤ v) (h1 : v ≤ 1) :
    (toHexChars v).map Char.toUpper = specChannelHex v := by
  have hnn := jsRound255_nonneg h0
  have hle := jsRound255_le_255 h1
  have hjs : jsToStr16 (jsRound255 v) = natToHex16 (jsRound255 v).toNat := by
    rw [jsToStr16, if_neg (by omega)]
  have hbound : (jsRound255 v).toNat ≤ 255 := by omega
  rcases natToHex16_len hbound with hl | hl
  · simp only [toHexChars, specChannelHex, hjs, hl, if_pos, List.length_map,
      List.map_cons]
    rw [show Char.toUpper '0' = '0' from rfl]
    rfl
  · simp only [toHexChars, specChannelHex, hjs, hl, List.length_map]
    norm_num

/-- C8: for channels in `[0,1]`, `rgbaToHex` realizes the spec's encoding
(scale ×255, round, two uppercase hex digits per channel, R,G,B order, alpha
appended exactly when defined and `< 1`); in particular pure red is
`#FF0000` and half-transparent red is `#FF000080`. -/
theorem rgbaToHex_spec_conformance :
    (∀ c : RGBA, 0 ≤ c.r → c.r ≤ 1 → 0 ≤ c.g → c.g ≤ 1 → 0 ≤ c.b → c.b ≤ 1 →
        (∀ a ∈ c.a, 0 ≤ a ∧ a ≤ 1) → rgbaToHex c = rgbaToHexSpec c) ∧
    rgbaToHex ⟨1, 0, 0, some 1⟩ = "#FF0000" ∧
    rgbaToHex ⟨1, 0, 0, some (1 / 2)⟩ = "#FF000080" := by
  refine ⟨?_, by decide, ?_⟩
  · rintro ⟨r, g, b, a⟩ hr0 hr1 hg0 hg1 hb0 hb1 ha
    simp only at hr0 hr1 hg0 hg1 hb0 hb1 ha
    have hr := toHexChars_upper_eq hr0 hr1
    have hg := toHexChars_upper_eq hg0 hg1
    have hb := toHexChars_upper_eq hb0 hb1
    rcases a with _ | a
    · apply String.ext
      simp [rgbaToHex, rgbaToHexSpec, strToUpper, List.map_append, hr, hg, hb,
        show Char.toUpper '#' = '#' from rfl]
    · obtain ⟨ha0, ha1⟩ := ha a rfl
      have hA := toHexChars_upper_eq ha0 ha1
      by_cases hlt : a < 1
      · apply String.ext
        simp [rgbaToHex, rgbaToHexSpec, strToUpper, hlt, List.map_append,
          hr, hg, hb, hA, show Char.toUpper '#' = '#' from rfl]
      · apply String.ext
        simp [rgbaToHex, rgbaToHexSpec, strToUpper, hlt, List.map_append,
          hr, hg, hb, show Char.toUpper '#' = '#' from rfl]
  · have hhalf : (⟨1, 2, by decide, by decide⟩ : ℚ) = 1 / 2 := by
      rw [Rat.mk'_eq_divInt, Rat.divInt_eq_div]
      norm_num
    rw [← hhalf]
    decide

/-- Witness for C8: the general channel-wise conformance applied to opaque
pure red. -/
theorem rgbaToHex_spec_conformance_witness :
    rgbaToHex ⟨1, 0, 0, some 1⟩ = rgbaToHexSpec ⟨1, 0, 0, some 1⟩ :=
  rgbaToHex_spec_conformance.1 ⟨1, 0, 0, some 1⟩ (by decide) (by decide) (by decide)
    (by decide) (by decide) (by decide) (by decide)

/-! ## C3: unknown collection ids abort the export atomically -/

/-- Helper: if either collection id is unknown, validation throws the
descriptive error. -/
theorem validateAndGetCollections_error (env : Env) (tid pid : String)
    (h : env.localCollections.find? (fun c => c.id == tid) = none ∨
         env.localCollections.find? (fun c => c.id == pid) = none) :
    validateAndGetCollections env tid pid =
      Except.error "Collections not found - please check your collection IDs" := by
  rcases h with h | h
  · cases hp : env.localCollections.find? fun c => c.id == pid <;>
      simp [validateAndGetCollections, h, hp]
  · cases ht : env.localCollections.find? fun c => c.id == tid <;>
      simp [validateAndGetCollections, h, ht]

/-- C3: when the token or primitive collection id matches no collection,
`exportTokens` throws the descriptive `Collections not found` error right
after the initial "analyzing" notification — in particular the
`download-json` message is never posted, so no partial document is emitted. -/
theorem exportTokens_collections_not_found (env : Env) (lc : String → String → Int)
    (fuel : Nat) (nowISO : String) (nowMs : Int) (config : ExportConfig)
    (h : env.localCollections.find? (fun c => c.id == config.tokenCollectionId) = none ∨
         env.localCollections.find? (fun c => c.id == config.primitiveCollectionId) = none) :
    (∃ msg, exportTokens env lc fuel nowISO nowMs config =
        some ([Effect.notify msg],
          some "Collections not found - please check your collection IDs")) ∧
    (∀ effects err, exportTokens env lc fuel nowISO nowMs config = some (effects, err) →
        ∀ msgType md toks, Effect.postMessage msgType md toks ∉ effects) := by
  have hval := validateAndGetCollections_error env config.tokenCollectionId
    config.primitiveCollectionId h
  constructor
  · refine ⟨((translations (match config.lang with
      | some l => if l = "" then "en" else l
      | none => "en")).getD enTranslation).analyzing, ?_⟩
    simp [exportTokens, hval]
  · intro effects err heq msgType md toks hmem
    simp only [exportTokens, hval] at heq
    obtain ⟨heff, -⟩ := Prod.mk.injEq .. ▸ (Option.some.injEq .. ▸ heq)
    subst heff
    simp at hmem

/-- Witness for C3: an empty environment knows no collection ids. -/
theorem exportTokens_collections_not_found_witness :
    (∃ msg, exportTokens ⟨[], []⟩ lcDefault 1 "2024-01-01T00:00:00Z" 0
        ⟨"tc", "pc", [], none⟩ =
        some ([Effect.notify msg],
          some "Collections not found - please check your collection IDs")) ∧
    (∀ effects err, exportTokens ⟨[], []⟩ lcDefault 1 "2024-01-01T00:00:00Z" 0
        ⟨"tc", "pc", [], none⟩ = some (effects, err) →
        ∀ msgType md toks, Effect.postMessage msgType md toks ∉ effects) :=
  exportTokens_collections_not_found ⟨[], []⟩ lcDefault 1 "2024-01-01T00:00:00Z" 0
    ⟨"tc", "pc", [], none⟩ (Or.inl (by decide))

/-! ## C6: group names stay unique under `insertTokenIntoTree` -/

/-- Lemma: `groupNames` distributes over append. -/
theorem groupNames_append (l1 l2 : List Item) :
    groupNames (l1 ++ l2) = groupNames l1 ++ groupNames l2 := by
  induction l1 with
  | nil => rfl
  | cons i rest ih => cases i <;> simp [groupNames, ih]

/-- Appending a token does not change the group names of a level. -/
theorem groupNames_insert_nil (level : List Item) (tok : Item)
    (htok : tok.isToken = true) :
    groupNames (insertTokenIntoTree level [] tok) = groupNames level := by
  cases tok with
  | group n cs => simp [Item.isToken] at htok
  | token n p m =>
    show groupNames (insertTokenIntoTree level [] (Item.token n p m)) = _
    simp [insertTokenIntoTree, groupNames_append, groupNames]

/-- Inserting along a non-empty folder path reuses the existing group when
one with the head folder's name exists at the level, and otherwise appends a
single new group of that name at the end of the level. -/
theorem groupNames_insert_cons (level : List Item) (f : String) (rest : List String)
    (tok : Item) :
    groupNames (insertTokenIntoTree level (f :: rest) tok) =
      if f ∈ groupNames level then groupNames level
      else groupNames level ++ [f] := by
  induction level with
  | nil => simp [insertTokenIntoTree, groupNames]
  | cons i is ih =>
    by_cases hm : isMatchingGroup i f
    · cases i with
      | token n p m => simp [isMatchingGroup, Item.isGroup] at hm
      | group n cs =>
        have hn : n = f := by
          simpa [isMatchingGroup, Item.name, Item.isGroup] using hm
        subst hn
        simp [insertTokenIntoTree, hm, groupNames]
    · cases i with
      | token n p m =>
        simp [insertTokenIntoTree, hm, groupNames, ih]
      | group n cs =>
        have hn : ¬(n = f) := by
          simpa [isMatchingGroup, Item.name, Item.isGroup] using hm
        have hfn : ¬(f = n) := fun hh => hn hh.symm
        simp only [insertTokenIntoTree, if_neg hm, groupNames, ih,
          List.mem_cons, List.cons_append]
        by_cases hmem : f ∈ groupNames is <;> simp [hmem, hfn]

/-- Lemma: `NoDupGroups` holds of the empty level. -/
theorem NoDupGroups_nil : NoDupGroups [] :=
  NoDupGroups.intro (by simp [groupNames]) (by simp)

/-- Lemma: `NoDupGroups` restricts to the tail of a level. -/
theorem NoDupGroups_tail {i : Item} {is : List Item}
    (h : NoDupGroups (i :: is)) : NoDupGroups is := by
  obtain ⟨hnd, hch⟩ := h
  refine NoDupGroups.intro ?_ ?_
  · cases i with
    | token n p m => simpa [groupNames] using hnd
    | group n cs => exact (List.nodup_cons.mp (by simpa [groupNames] using hnd)).2
  · intro n cs hmem
    exact hch n cs (List.mem_cons_of_mem _ hmem)

/-- One insertion of a token preserves the no-duplicate-group-names
invariant at every level. -/
theorem NoDupGroups_insert (level : List Item) (folders : List String) (tok : Item) :
    tok.isToken = true → NoDupGroups level →
    NoDupGroups (insertTokenIntoTree level folders tok) := by
  induction level, folders, tok using insertTokenIntoTree.induct with
  | case1 level tok =>
    intro htok h
    obtain ⟨hnd, hch⟩ := h
    refine NoDupGroups.intro ?_ ?_
    · rwa [groupNames_insert_nil level tok htok]
    · intro n cs hmem
      rw [show insertTokenIntoTree level [] tok = level ++ [tok] from by
        simp [insertTokenIntoTree]] at hmem
      rcases List.mem_append.mp hmem with hmem | hmem
      · exact hch n cs hmem
      · cases tok with
        | group n' cs' => simp [Item.isToken] at htok
        | token n' p' m' => simp at hmem
  | case2 f rest tok ih =>
    intro htok h
    refine NoDupGroups.intro ?_ ?_
    · rw [show insertTokenIntoTree [] (f :: rest) tok =
          [Item.group f (insertTokenIntoTree [] rest tok)] from by
        simp [insertTokenIntoTree]]
      simp [groupNames]
    · intro n cs hmem
      rw [show insertTokenIntoTree [] (f :: rest) tok =
          [Item.group f (insertTokenIntoTree [] rest tok)] from by
        simp [insertTokenIntoTree]] at hmem
      simp only [List.mem_singleton, Item.group.injEq] at hmem
      obtain ⟨-, rfl⟩ := hmem
      exact ih htok NoDupGroups_nil
  | case3 is f rest tok n cs hm ih =>
    intro htok h
    obtain ⟨hnd, hch⟩ := h
    have hn : n = f := by
      simpa [isMatchingGroup, Item.name, Item.isGroup] using hm
    subst hn
    rw [show insertTokenIntoTree (Item.group n cs :: is) (n :: rest) tok =
        Item.group n (insertTokenIntoTree cs rest tok) :: is from by
      simp [insertTokenIntoTree, hm]]
    refine NoDupGroups.intro ?_ ?_
    · simpa [groupNames] using hnd
    · intro n' cs' hmem
      rcases List.mem_cons.mp hmem with hmem | hmem
      · obtain ⟨rfl, rfl⟩ := Item.group.injEq .. ▸ hmem
        exact ih htok (hch n' cs (List.mem_cons_self _ _))
      · exact hch n' cs' (List.mem_cons_of_mem _ hmem)
  | case4 is f rest tok t hng hm ih =>
    intro htok h
    exfalso
    cases t with
    | group n cs => exact hng n cs rfl
    | token n p m => simp [isMatchingGroup, Item.isGroup] at hm
  | case5 i is f rest tok hm ih =>
    intro htok h
    have htail := ih htok (NoDupGroups_tail h)
    obtain ⟨hnd, hch⟩ := h
    rw [show insertTokenIntoTree (i :: is) (f :: rest) tok =
        i :: insertTokenIntoTree is (f :: rest) tok from by
      cases i <;> simp [insertTokenIntoTree, hm]]
    refine NoDupGroups.intro ?_ ?_
    · rw [show groupNames (i :: insertTokenIntoTree is (f :: rest) tok) =
          groupNames [i] ++ groupNames (insertTokenIntoTree is (f :: rest) tok) from by
        cases i <;> simp [groupNames]]
      rw [groupNames_insert_cons]
      cases i with
      | token n p m =>
        simp only [groupNames]
        by_cases hmem : f ∈ groupNames is <;>
          simp only [hmem, if_pos, if_neg, not_false_iff, List.nil_append]
        · simpa [groupNames] using hnd
        · refine List.Nodup.append (by simpa [groupNames] using hnd) (by simp) ?_
          intro x hx hx'
          simp only [List.mem_singleton] at hx'
          subst hx'
          exact hmem hx
      | group n cs =>
        have hn : ¬(n = f) := by
          simpa [isMatchingGroup, Item.name, Item.isGroup] using hm
        have hnd' : n ∉ groupNames is ∧ (groupNames is).Nodup := by
          simpa [groupNames] using hnd
        obtain ⟨hnmem, hndis⟩ := hnd'
        by_cases hmem : f ∈ groupNames is <;>
          simp only [hmem, if_pos, if_neg, not_false_iff, groupNames,
            List.singleton_append]
        · exact List.nodup_cons.mpr ⟨hnmem, hndis⟩
        · refine List.nodup_cons.mpr ⟨?_, ?_⟩
          · intro hx
            rcases List.mem_append.mp hx with hx | hx
            · exact hnmem hx
            · simp only [List.mem_singleton] at hx
              exact hn hx
          · refine List.Nodup.append hndis (by simp) ?_
            intro x hx hx'
            simp only [List.mem_singleton] at hx'
            subst hx'
            exact hmem hx
    · intro n' cs' hmem
      rcases List.mem_cons.mp hmem with hmem | hmem
      · exact hch n' cs' (hmem ▸ List.mem_cons_self _ _)
      · obtain ⟨hnd2, hch2⟩ := htail
        exact hch2 n' cs' hmem

/-- C6: starting from an empty root, any sequence of token insertions keeps
group names unique within every `children` array (merge-on-insert); moreover
a single insertion reuses the level's group of the head folder name when one
exists, and otherwise appends exactly one new group of that name at the end
of the level. -/
theorem insertTokenIntoTree_noDupGroups :
    (∀ (inserts : List (List String × Item)),
        (∀ p ∈ inserts, (p.2).isToken = true) →
        NoDupGroups (inserts.foldl
          (fun acc p => insertTokenIntoTree acc p.1 p.2) [])) ∧
    (∀ level f rest tok, groupNames (insertTokenIntoTree level (f :: rest) tok) =
        if f ∈ groupNames level then groupNames level
        else groupNames level ++ [f]) := by
  constructor
  · intro inserts hins
    suffices H : ∀ (acc : List Item), NoDupGroups acc →
        NoDupGroups (inserts.foldl (fun acc p => insertTokenIntoTree acc p.1 p.2) acc) from
      H [] NoDupGroups_nil
    induction inserts with
    | nil => intro acc hacc; exact hacc
    | cons p ps ih =>
      intro acc hacc
      exact ih (fun q hq => hins q (List.mem_cons_of_mem _ hq)) _
        (NoDupGroups_insert acc p.1 p.2 (hins p (List.mem_cons_self _ _)) hacc)
  · exact groupNames_insert_cons

/-- Witness for C6: two tokens inserted along overlapping folder paths. -/
theorem insertTokenIntoTree_noDupGroups_witness :
    NoDupGroups ([(["Colors", "Border"], Item.token "primary" "p1" []),
        (["Colors", "Background"], Item.token "primary" "p2" [])].foldl
      (fun acc p => insertTokenIntoTree acc p.1 p.2) []) :=
  insertTokenIntoTree_noDupGroups.1 _ (by decide)

/-! ## C2, C7: `sortTokensAlphabetically` sorts, and is idempotent -/

/-- Totality of the item order, given a total comparator. -/
theorem itemLE_total (lc : String → String → Int)
    (htot : ∀ a b, lc a b ≤ 0 ∨ lc b a ≤ 0) :
    ∀ a b : Item, (itemLE lc a b || itemLE lc b a) = true := by
  intro a b
  simp only [itemLE, Bool.or_eq_true, decide_eq_true_eq]
  cases ha : a.isGroup <;> cases hb : b.isGroup
  · simpa [tokenComparator, ha, hb] using htot a.name b.name
  · simp [tokenComparator, ha, hb]
  · simp [tokenComparator, ha, hb]
  · simpa [tokenComparator, ha, hb] using htot a.name b.name

/-- Transitivity of the item order, given a transitive comparator. -/
theorem itemLE_trans (lc : String → String → Int)
    (htrans : ∀ a b c, lc a b ≤ 0 → lc b c ≤ 0 → lc a c ≤ 0) :
    ∀ a b c : Item, itemLE lc a b = true → itemLE lc b c = true →
      itemLE lc a c = true := by
  intro a b c hab hbc
  simp only [itemLE, decide_eq_true_eq] at hab hbc ⊢
  cases ha : a.isGroup <;> cases hb : b.isGroup <;> cases hc : c.isGroup <;>
    simp [tokenComparator, ha, hb, hc] at hab hbc ⊢ <;>
    exact htrans _ _ _ hab hbc

/-- Pairwise `itemLE` implies the spec's levelwise sortedness. -/
theorem levelSorted_of_pairwise (lc : String → String → Int) (items : List Item)
    (h : items.Pairwise fun a b => itemLE lc a b = true) : levelSorted lc items := by
  refine h.imp ?_
  intro a b hab
  simp only [itemLE, decide_eq_true_eq] at hab
  constructor
  · intro hA
    by_contra hB
    have hb : b.isGroup = true := by
      cases hbv : b.isGroup
      · exact absurd hbv hB
      · rfl
    rw [show tokenComparator lc a b = 1 from by
      simp [tokenComparator, hA, hb]] at hab
    norm_num at hab
  · intro hEq
    have hcomp : tokenComparator lc a b = lc a.name b.name := by
      cases hav : a.isGroup <;> rw [hav] at hEq <;>
        simp [tokenComparator, hav, hEq.symm]
    rwa [hcomp] at hab

/-- Lemma: `sortEach` is the map of `sortItem`. -/
theorem sortEach_eq_map (lc : String → String → Int) :
    ∀ items : List Item, sortEach lc items = items.map (sortItem lc)
  | [] => by simp [sortEach]
  | i :: is => by simp [sortEach, sortEach_eq_map lc is]

/-- Every member of a sorted forest is the recursive sort of a member of the
input. -/
theorem mem_sortTokens {lc : String → String → Int} {y : Item} {items : List Item}
    (hy : y ∈ sortTokensAlphabetically lc items) :
    ∃ x ∈ items, y = sortItem lc x := by
  rw [sortTokensAlphabetically, List.mem_mergeSort, sortEach_eq_map] at hy
  obtain ⟨x, hx, hxy⟩ := List.mem_map.mp hy
  exact ⟨x, hx, hxy.symm⟩

/-- C2: for any consistent `localeCompare`, the output of
`sortTokensAlphabetically` has, at the top level and inside every group at
every depth, all groups before all tokens and each tier in weakly increasing
locale order. -/
theorem sortTokensAlphabetically_sorted (lc : String → String → Int)
    (htot : ∀ a b, lc a b ≤ 0 ∨ lc b a ≤ 0)
    (htrans : ∀ a b c, lc a b ≤ 0 → lc b c ≤ 0 → lc a c ≤ 0)
    (items : List Item) :
    TreeSorted lc (sortTokensAlphabetically lc items) := by
  suffices H : ∀ (N : Nat) (items : List Item), sizeOf items ≤ N →
      TreeSorted lc (sortTokensAlphabetically lc items) from
    H (sizeOf items) items le_rfl
  intro N
  induction N with
  | zero =>
    intro items h0
    exfalso
    cases items <;> simp at h0
  | succ N ih =>
    intro items hle
    refine TreeSorted.intro ?_ ?_
    · exact levelSorted_of_pairwise lc _
        (List.sorted_mergeSort (itemLE_trans lc htrans) (itemLE_total lc htot) _)
    · intro n cs hmem
      obtain ⟨x, hx, hxy⟩ := mem_sortTokens hmem
      cases x with
      | token a b c => simp [sortItem] at hxy
      | group n0 cs0 =>
        have hxy' : Item.group n cs = Item.group n0 (sortTokensAlphabetically lc cs0) := by
          simpa [sortItem, sortTokensAlphabetically] using hxy
        injection hxy' with h1 h2
        subst h1
        subst h2
        have hlt : sizeOf cs0 ≤ N := by
          have hmem' := List.sizeOf_lt_of_mem hx
          have hspec : sizeOf (Item.group n cs0) = 1 + sizeOf n + sizeOf cs0 := by
            simp
          omega
        exact ih cs0 hlt

/-- Witness for C2: a mixed forest sorted with the code-point comparator. -/
theorem sortTokensAlphabetically_sorted_witness :
    TreeSorted lcDefault (sortTokensAlphabetically lcDefault
      [Item.token "a" "a" [], Item.group "B" [Item.token "z" "z" []],
       Item.group "A" []]) :=
  sortTokensAlphabetically_sorted lcDefault lcDefault_total lcDefault_trans _

/-- C7: for any consistent `localeCompare`, `sortTokensAlphabetically` is
idempotent. -/
theorem sortTokensAlphabetically_idempotent (lc : String → String → Int)
    (htot : ∀ a b, lc a b ≤ 0 ∨ lc b a ≤ 0)
    (htrans : ∀ a b c, lc a b ≤ 0 → lc b c ≤ 0 → lc a c ≤ 0)
    (items : List Item) :
    sortTokensAlphabetically lc (sortTokensAlphabetically lc items) =
      sortTokensAlphabetically lc items := by
  suffices H : ∀ (N : Nat) (items : List Item), sizeOf items ≤ N →
      sortTokensAlphabetically lc (sortTokensAlphabetically lc items) =
        sortTokensAlphabetically lc items from
    H (sizeOf items) items le_rfl
  intro N
  induction N with
  | zero =>
    intro items h0
    exfalso
    cases items <;> simp at h0
  | succ N ih =>
    intro items hle
    have hfix : ∀ y ∈ sortTokensAlphabetically lc items, sortItem lc y = y := by
      intro y hy
      obtain ⟨x, hx, rfl⟩ := mem_sortTokens hy
      cases x with
      | token a b c => simp [sortItem]
      | group n0 cs0 =>
        have hlt : sizeOf cs0 ≤ N := by
          have hmem' := List.sizeOf_lt_of_mem hx
          have hspec : sizeOf (Item.group n0 cs0) = 1 + sizeOf n0 + sizeOf cs0 := by
            simp
          omega
        have hid := ih cs0 hlt
        show sortItem lc (sortItem lc (Item.group n0 cs0)) = sortItem lc (Item.group n0 cs0)
        simp only [sortItem]
        exact congrArg (Item.group n0) (by simpa [sortTokensAlphabetically] using hid)
    have h1 : sortEach lc (sortTokensAlphabetically lc items) =
        sortTokensAlphabetically lc items := by
      rw [sortEach_eq_map]
      exact (List.map_congr_left hfix).trans (List.map_id _)
    conv_lhs => rw [sortTokensAlphabetically]
    rw [h1]
    exact List.mergeSort_of_sorted
      (List.sorted_mergeSort (itemLE_trans lc htrans) (itemLE_total lc htot) _)

/-- Witness for C7: idempotence on a concrete mixed forest under the
code-point comparator. -/
theorem sortTokensAlphabetically_idempotent_witness :
    sortTokensAlphabetically lcDefault (sortTokensAlphabetically lcDefault
      [Item.token "a" "a" [], Item.group "B" [Item.token "z" "z" []],
       Item.group "A" []]) =
      sortTokensAlphabetically lcDefault
        [Item.token "a" "a" [], Item.group "B" [Item.token "z" "z" []],
         Item.group "A" []] :=
  sortTokensAlphabetically_idempotent lcDefault lcDefault_total lcDefault_trans _

/-! ## C10: no name-based filtering in the export -/

/-- Sorting an item preserves the token paths inside it. -/
theorem itemHasPath_sortItem {lc : String → String → Int} {p : String}
    {x : Item} (h : ItemHasPath p x) : ItemHasPath p (sortItem lc x) := by
  induction h with
  | token name modes =>
    rw [show sortItem lc (Item.token name p modes) = Item.token name p modes from by
      simp [sortItem]]
    exact ItemHasPath.token name modes
  | group name cs item hmem hpath ih =>
    rw [show sortItem lc (Item.group name cs) =
        Item.group name ((sortEach lc cs).mergeSort (itemLE lc)) from by
      simp [sortItem]]
    refine ItemHasPath.group _ _ (sortItem lc item) ?_ ih
    rw [List.mem_mergeSort, sortEach_eq_map]
    exact List.mem_map_of_mem _ hmem

/-- Sorting the forest preserves the token paths. -/
theorem treeHasPath_sort {lc : String → String → Int} {p : String}
    {items : List Item} (h : TreeHasPath p items) :
    TreeHasPath p (sortTokensAlphabetically lc items) := by
  obtain ⟨i, hi, hp⟩ := h
  refine ⟨sortItem lc i, ?_, itemHasPath_sortItem hp⟩
  rw [sortTokensAlphabetically, List.mem_mergeSort, sortEach_eq_map]
  exact List.mem_map_of_mem _ hi

/-- The freshly inserted token is present in the tree after insertion. -/
theorem treeHasPath_insert_tok (level : List Item) (folders : List String)
    (tok : Item) {p : String} :
    ItemHasPath p tok → TreeHasPath p (insertTokenIntoTree level folders tok) := by
  induction level, folders, tok using insertTokenIntoTree.induct with
  | case1 level tok =>
    intro h
    exact ⟨tok, by simp [insertTokenIntoTree], h⟩
  | case2 f rest tok ih =>
    intro h
    obtain ⟨i, hi, hp⟩ := ih h
    exact ⟨Item.group f (insertTokenIntoTree [] rest tok),
      by simp [insertTokenIntoTree], ItemHasPath.group _ _ i hi hp⟩
  | case3 is f rest tok n cs hm ih =>
    intro h
    obtain ⟨i, hi, hp⟩ := ih h
    refine ⟨Item.group n (insertTokenIntoTree cs rest tok), ?_,
      ItemHasPath.group _ _ i hi hp⟩
    rw [show insertTokenIntoTree (Item.group n cs :: is) (f :: rest) tok =
        Item.group n (insertTokenIntoTree cs rest tok) :: is from by
      simp [insertTokenIntoTree, hm]]
    exact List.mem_cons_self _ _
  | case4 is f rest tok t hng hm ih =>
    intro h
    exfalso
    cases t with
    | group n cs => exact hng n cs rfl
    | token a b c => simp [isMatchingGroup, Item.isGroup] at hm
  | case5 i is f rest tok hm ih =>
    intro h
    obtain ⟨j, hj, hp⟩ := ih h
    refine ⟨j, ?_, hp⟩
    rw [show insertTokenIntoTree (i :: is) (f :: rest) tok =
        i :: insertTokenIntoTree is (f :: rest) tok from by
      cases i <;> simp [insertTokenIntoTree, hm]]
    exact List.mem_cons_of_mem _ hj

/-- Insertion preserves the token paths already present in the tree. -/
theorem treeHasPath_insert_mono (level : List Item) (folders : List String)
    (tok : Item) {p : String} :
    TreeHasPath p level → TreeHasPath p (insertTokenIntoTree level folders tok) := by
  induction level, folders, tok using insertTokenIntoTree.induct with
  | case1 level tok =>
    rintro ⟨i, hi, hp⟩
    refine ⟨i, ?_, hp⟩
    rw [show insertTokenIntoTree level [] tok = level ++ [tok] from by
      simp [insertTokenIntoTree]]
    exact List.mem_append_left _ hi
  | case2 f rest tok ih =>
    rintro ⟨i, hi, hp⟩
    cases hi
  | case3 is f rest tok n cs hm ih =>
    rintro ⟨i, hi, hp⟩
    rw [show insertTokenIntoTree (Item.group n cs :: is) (f :: rest) tok =
        Item.group n (insertTokenIntoTree cs rest tok) :: is from by
      simp [insertTokenIntoTree, hm]]
    rcases List.mem_cons.mp hi with rfl | hi
    · cases hp with
      | group _ _ j hj hpj =>
        obtain ⟨k, hk, hpk⟩ := ih ⟨j, hj, hpj⟩
        exact ⟨Item.group n (insertTokenIntoTree cs rest tok),
          List.mem_cons_self _ _, ItemHasPath.group _ _ k hk hpk⟩
    · exact ⟨i, List.mem_cons_of_mem _ hi, hp⟩
  | case4 is f rest tok t hng hm ih =>
    intro h
    exfalso
    cases t with
    | group n cs => exact hng n cs rfl
    | token a b c => simp [isMatchingGroup, Item.isGroup] at hm
  | case5 i is f rest tok hm ih =>
    rintro ⟨j, hj, hp⟩
    rw [show insertTokenIntoTree (i :: is) (f :: rest) tok =
        i :: insertTokenIntoTree is (f :: rest) tok from by
      cases i <;> simp [insertTokenIntoTree, hm]]
    rcases List.mem_cons.mp hj with rfl | hj
    · exact ⟨j, List.mem_cons_self _ _, hp⟩
    · obtain ⟨k, hk, hpk⟩ := ih ⟨j, hj, hp⟩
      exact ⟨k, List.mem_cons_of_mem _ hk, hpk⟩

/-- Paths present in the accumulator survive the rest of the variable loop. -/
theorem processVariables_mono (env : Env) (fuel : Nat) (brands : List Brand) :
    ∀ (vs : List Variable) (acc root : List Item) (p : String),
      TreeHasPath p acc → processVariables env fuel brands vs acc = some root →
      TreeHasPath p root := by
  intro vs
  induction vs with
  | nil =>
    intro acc root p hacc hproc
    simp only [processVariables, Option.some.injEq] at hproc
    exact hproc ▸ hacc
  | cons w ws ih =>
    intro acc root p hacc hproc
    by_cases hcw : w.resolvedType = "COLOR"
    · simp only [processVariables, hcw, ne_eq, not_true_eq_false, if_false,
        Option.bind_eq_bind] at hproc
      cases hct : createTokenObject env fuel w brands with
      | none => rw [hct] at hproc; cases hproc
      | some tok =>
        rw [hct] at hproc
        simp only [Option.some_bind] at hproc
        exact ih _ root p (treeHasPath_insert_mono _ _ _ hacc) hproc
    · simp only [processVariables, hcw, ne_eq, not_false_iff, if_true] at hproc
      exact ih acc root p hacc hproc

/-- Every `COLOR` variable processed by the loop ends up in the tree, keyed
by its full path. -/
theorem processVariables_hasPath (env : Env) (fuel : Nat) (brands : List Brand) :
    ∀ (vs : List Variable) (acc root : List Item) (v : Variable),
      v ∈ vs → v.resolvedType = "COLOR" →
      processVariables env fuel brands vs acc = some root →
      TreeHasPath v.name root := by
  intro vs
  induction vs with
  | nil =>
    intro acc root v hv
    cases hv
  | cons w ws ih =>
    intro acc root v hv hcol hproc
    rcases List.mem_cons.mp hv with rfl | hv
    · simp only [processVariables, hcol, ne_eq, not_true_eq_false, if_false,
        Option.bind_eq_bind] at hproc
      cases hct : createTokenObject env fuel v brands with
      | none => rw [hct] at hproc; cases hproc
      | some tok =>
        rw [hct] at hproc
        simp only [Option.some_bind] at hproc
        have htokpath : ItemHasPath v.name tok := by
          cases hra : resolveAllBrands env fuel v brands with
          | none =>
            rw [show createTokenObject env fuel v brands = none from by
              simp [createTokenObject, hra]] at hct
            cases hct
          | some ms =>
            rw [show createTokenObject env fuel v brands =
                some (Item.token (parseVariablePath v.name).filename v.name ms) from by
              simp [createTokenObject, hra]] at hct
            obtain rfl := Option.some.injEq .. ▸ hct.symm
            exact ItemHasPath.token _ _
        exact processVariables_mono env fuel brands ws _ root v.name
          (treeHasPath_insert_tok _ _ _ htokpath) hproc
    · by_cases hcw : w.resolvedType = "COLOR"
      · simp only [processVariables, hcw, ne_eq, not_true_eq_false, if_false,
          Option.bind_eq_bind] at hproc
        cases hct : createTokenObject env fuel w brands with
        | none => rw [hct] at hproc; cases hproc
        | some tok =>
          rw [hct] at hproc
          simp only [Option.some_bind] at hproc
          exact ih _ root v hv hcol hproc
      · simp only [processVariables, hcw, ne_eq, not_false_iff, if_true] at hproc
        exact ih acc root v hv hcol hproc

/-- On success, validation returns exactly the variables of the token
collection. -/
theorem validateAndGetCollections_ok_vars {env : Env} {tid pid : String}
    {pcol tcol : VariableCollection} {vars : List Variable}
    (h : validateAndGetCollections env tid pid = Except.ok (pcol, tcol, vars)) :
    vars = env.localVariables.filter fun v => v.variableCollectionId == tid := by
  simp only [validateAndGetCollections] at h
  cases hp : env.localCollections.find? (fun c => c.id == pid) <;>
    cases ht : env.localCollections.find? (fun c => c.id == tid) <;>
    rw [hp, ht] at h
  · cases h
  · cases h
  · cases h
  · simp only [Except.ok.injEq, Prod.mk.injEq] at h
    exact h.2.2.symm

/-- C10: `exportTokens` applies no name-based filtering: every `COLOR`
variable of the token collection — in particular one whose name begins with
`_` or `#` — appears in the posted `download-json` tree; only the
`resolvedType ≠ "COLOR"` check skips variables. -/
theorem exportTokens_no_name_filter (env : Env) (lc : String → String → Int)
    (fuel : Nat) (nowISO : String) (nowMs : Int) (config : ExportConfig)
    (effects : List Effect) (md : ExportMetadata) (toks : List Item) (v : Variable)
    (hrun : exportTokens env lc fuel nowISO nowMs config = some (effects, none))
    (hpost : Effect.postMessage "download-json" md toks ∈ effects)
    (hv : v ∈ env.localVariables)
    (hcid : v.variableCollectionId = config.tokenCollectionId)
    (hty : v.resolvedType = "COLOR") :
    TreeHasPath v.name toks := by
  simp only [exportTokens] at hrun
  cases hval : validateAndGetCollections env config.tokenCollectionId
      config.primitiveCollectionId with
  | error e =>
    simp only [hval] at hrun
    simp at hrun
  | ok triple =>
    obtain ⟨pcol, tcol, vars⟩ := triple
    simp only [hval] at hrun
    cases hproc : processVariables env fuel config.brands vars [] with
    | none =>
      simp only [hproc] at hrun
      cases hrun
    | some root =>
      simp only [hproc, Option.some.injEq, Prod.mk.injEq] at hrun
      obtain ⟨heff, -⟩ := hrun
      subst heff
      simp only [List.mem_cons, List.not_mem_nil, or_false] at hpost
      rcases hpost with h | h | h
      · cases h
      · injection h with h1 h2 h3
        subst h3
        have hvars := validateAndGetCollections_ok_vars hval
        have hvm : v ∈ vars := by
          rw [hvars]
          exact List.mem_filter.mpr ⟨hv, by simp [hcid]⟩
        exact treeHasPath_sort
          (processVariables_hasPath env fuel config.brands vars [] root v hvm hty hproc)
      · cases h

/-- A two-collection environment with a single `COLOR` variable whose name
begins with an underscore. -/
def demoEnv : Env :=
  ⟨[⟨"v1", "_x", "COLOR", "tc", []⟩],
   [⟨"tc", "Tokens", []⟩, ⟨"pc", "Primitives", []⟩]⟩

/-- A minimal export configuration for `demoEnv` (no brands). -/
def demoConfig : ExportConfig := ⟨"tc", "pc", [], none⟩

/-- Witness for C10: the underscore-named variable `_x` is exported. -/
theorem exportTokens_no_name_filter_witness :
    TreeHasPath "_x" [Item.token "_x" "_x" []] :=
  exportTokens_no_name_filter demoEnv lcDefault 1 "t0" 0 demoConfig
    [Effect.notify "⏳ Analysing...",
     Effect.postMessage "download-json" (createExportMetadata "t0" 0)
       [Item.token "_x" "_x" []],
     Effect.notify "✅ Export finished!"]
    (createExportMetadata "t0" 0) [Item.token "_x" "_x" []]
    ⟨"v1", "_x", "COLOR", "tc", []⟩
    (by simp [exportTokens, demoEnv, demoConfig, validateAndGetCollections,
      processVariables, createTokenObject, resolveAllBrands, parseVariablePath,
      splitSlash, toKebabCase, replaceWsAux, sanitizeFolderName,
      insertTokenIntoTree, sortTokensAlphabetically, sortEach, sortItem,
      translations, enTranslation, createExportMetadata])
    (by simp)
    (by simp [demoEnv])
    (by decide)
    (by decide)

end Figma
